import Mathlib

/- Shallow embedding of the heapless-bytes crate (src/lib.rs): a newtype
`Bytes<N>` around the bounded vector `heapless::Vec<u8, N>`, offering
bounded insertion, slice construction, equality and ordering against any
byte-slice view, and a serde adapter that encodes as one atomic byte
string and decodes from either an atomic byte string or a generic
sequence of byte elements.

Modelling choices: a byte is a `Nat` (no modelled operation does byte
arithmetic, so no wraparound can arise); the bounded vector is a
`List Nat` whose length every operation keeps at most `N`; fallible
collaborator operations return `Except`, and a Rust panic inside a slice
copy primitive is `Option.none`. -/

namespace HeaplessBytes

/-- Embeds `struct Bytes<N> { bytes: Vec<u8, N> }`. The capacity `N` is a
phantom parameter, exactly as the const-generic-like parameter in the
Rust type; the length bound is a property of the operations, not of the
carrier. -/
structure Bytes (N : Nat) where
  bytes : List Nat
  deriving DecidableEq

/-- Embeds `heapless::Vec::extend_from_slice`: appends `other` to `v`,
failing (with the vector untouched) when the result would exceed the
capacity `N`. -/
def extend_from_slice (N : Nat) (v other : List Nat) : Except Unit (List Nat) :=
  if v.length + other.length > N then .error () else .ok (v ++ other)

/-- Embeds `heapless::Vec::resize_default` for byte vectors: fails when
`newLen` exceeds the capacity `N`; otherwise pads with zero bytes (the
`u8` default) or truncates. -/
def resize_default (N : Nat) (v : List Nat) (newLen : Nat) : Except Unit (List Nat) :=
  if newLen > N then .error ()
  else if v.length ≤ newLen then .ok (v ++ List.replicate (newLen - v.length) 0)
  else .ok (v.take newLen)

/-- Embeds `heapless::Vec::push`: appends one byte, failing when the
vector already holds `N` elements. -/
def vecPush (N : Nat) (v : List Nat) (x : Nat) : Except Unit (List Nat) :=
  if v.length < N then .ok (v ++ [x]) else .error ()

/-- Overwrites `l` at positions `dest, dest+1, ...` with the bytes of
`src` (helper for the two slice copy primitives; callers establish
`dest + src.length ≤ l.length`). -/
def writeAt (l : List Nat) (dest : Nat) (src : List Nat) : List Nat :=
  l.take dest ++ src ++ l.drop (dest + src.length)

/-- Embeds `slice::copy_within(srcStart..srcEnd, dest)` on a byte slice;
`none` models the panic on an out-of-range source or destination,
including a source range whose start exceeds its end. -/
def copy_within (l : List Nat) (srcStart srcEnd dest : Nat) : Option (List Nat) :=
  if srcStart ≤ srcEnd ∧ srcEnd ≤ l.length ∧ dest + (srcEnd - srcStart) ≤ l.length then
    some (writeAt l dest ((l.drop srcStart).take (srcEnd - srcStart)))
  else none

/-- Embeds `raw[i..][..src.len()].copy_from_slice(src)`; `none` models
the panic when the subrange is out of bounds. -/
def copy_from_slice (l : List Nat) (i : Nat) (src : List Nat) : Option (List Nat) :=
  if i + src.length ≤ l.length then some (writeAt l i src) else none

/-- Embeds `Bytes::from` (named `fromVec`, `from` being a reserved word):
wraps an existing bounded vector; no capacity check, no failure. -/
def Bytes.fromVec (N : Nat) (v : List Nat) : Bytes N :=
  ⟨v⟩

/-- Embeds `Bytes::new`: `Bytes::from(Vec::new())`. -/
def Bytes.new (N : Nat) : Bytes N :=
  Bytes.fromVec N []

/-- Embeds `Bytes::into_vec`: unwraps the underlying vector. -/
def Bytes.into_vec {N : Nat} (self : Bytes N) : List Nat :=
  self.bytes

/-- Embeds `Bytes::try_from_slice`: extends a fresh vector by the slice,
propagating the capacity failure. -/
def Bytes.try_from_slice (N : Nat) (slice : List Nat) : Except Unit (Bytes N) :=
  match extend_from_slice N [] slice with
  | .ok bytes => .ok (Bytes.fromVec N bytes)
  | .error e => .error e

/-- Outcome of `Bytes::insert_slice_at` on a starting buffer: `ok` holds
the mutated buffer of the `Ok(())` return, `err` holds the buffer as the
`Err(())` return left it, and `trap` models a panic inside a slice copy
primitive (the call does not return). -/
inductive InsertOutcome (N : Nat) where
  | ok (b : Bytes N)
  | err (b : Bytes N)
  | trap
  deriving DecidableEq

/-- Embeds `Bytes::insert_slice_at(slice, i)`: grow by
`resize_default`, shift the old suffix right with `copy_within`, then
write the slice with `copy_from_slice`. -/
def Bytes.insert_slice_at {N : Nat} (self : Bytes N) (slice : List Nat) (i : Nat) :
    InsertOutcome N :=
  let l := slice.length
  let before := self.bytes.length
  match resize_default N self.bytes (before + l) with
  | .error _ => .err self
  | .ok grown =>
    match copy_within grown i before (i + l) with
    | none => .trap
    | some moved =>
      match copy_from_slice moved i slice with
      | none => .trap
      | some done => .ok ⟨done⟩

/-- Embeds byte-slice equality, `<[u8] as PartialEq>::eq`: elementwise. -/
def sliceEq : List Nat → List Nat → Bool
  | [], [] => true
  | x :: xs, y :: ys => x == y && sliceEq xs ys
  | _, _ => false

/-- Embeds byte-slice comparison, `<[u8] as Ord>::cmp`: lexicographic,
shorter prefix first. -/
def sliceCompare : List Nat → List Nat → Ordering
  | [], [] => .eq
  | [], _ :: _ => .lt
  | _ :: _, [] => .gt
  | x :: xs, y :: ys =>
    match compare x y with
    | .eq => sliceCompare xs ys
    | o => o

/-- Embeds `impl PartialEq<Rhs> for Bytes<N>` where `Rhs: AsRef<[u8]>`:
the right-hand value enters only through its byte-slice view, so it is
modelled by that view. -/
def Bytes.beq {N : Nat} (self : Bytes N) (rhs : List Nat) : Bool :=
  sliceEq self.bytes rhs

/-- Embeds `impl PartialOrd<Rhs> for Bytes<N>`: delegates to byte-slice
comparison, which is total, hence always `some`. -/
def Bytes.partial_cmp {N : Nat} (self : Bytes N) (rhs : List Nat) : Option Ordering :=
  some (sliceCompare self.bytes rhs)

/-- Embeds the decode-side error `serde::de::Error::invalid_length(n, ..)`
raised by the visitor, carrying the offending size. -/
inductive DeError where
  | invalidLength (n : Nat)
  deriving DecidableEq

/-- Embeds `ValueVisitor::visit_bytes`: the atomic byte-string decode
shape, handed the whole blob `v` at once. -/
def visit_bytes (N : Nat) (v : List Nat) : Except DeError (Bytes N) :=
  if v.length > N then .error (.invalidLength v.length)
  else
    match extend_from_slice N [] v with
    | .ok buf => .ok (Bytes.fromVec N buf)
    | .error _ => .error (.invalidLength v.length)

/-- Loop of `ValueVisitor::visit_seq`: pushes the remaining cursor
elements one at a time into `values`; a failed push reports
`invalid_length(values.capacity() + 1)`, and the capacity of
`Vec<u8, N>` is `N`. -/
def visit_seq_loop (N : Nat) (values : List Nat) : List Nat → Except DeError (Bytes N)
  | [] => .ok (Bytes.fromVec N values)
  | x :: xs =>
    match vecPush N values x with
    | .ok values2 => visit_seq_loop N values2 xs
    | .error _ => .error (.invalidLength (N + 1))

/-- Embeds `ValueVisitor::visit_seq`: the generic sequence decode shape;
the pull-style cursor is modelled by the list of elements it yields. -/
def visit_seq (N : Nat) (elems : List Nat) : Except DeError (Bytes N) :=
  visit_seq_loop N [] elems

/-- Embeds `impl Serialize for Bytes<N>`:
`serializer.serialize_bytes(self)` emits exactly one atomic byte-string
primitive whose payload is the buffer content verbatim; the model
returns that payload. -/
def serialize {N : Nat} (self : Bytes N) : List Nat :=
  self.bytes

/-- One operation of the public interface, for the capacity-invariant
claim. `fromOp` carries a value already converted to the bounded-vector
type; `viewMutOp` is mutation through the exposed mutable byte-slice
views (`AsMut`, `DerefMut` to a slice, mutable iteration), which rewrite
bytes in place and cannot change the length, modelled as an arbitrary
position-and-value dependent rewrite. -/
inductive Op where
  | newOp : Op
  | fromOp (v : List Nat) : Op
  | tryFromSliceOp (s : List Nat) : Op
  | insertSliceAtOp (s : List Nat) (i : Nat) : Op
  | decodeBytesOp (v : List Nat) : Op
  | decodeSeqOp (elems : List Nat) : Op
  | viewMutOp (f : Nat → Nat → Nat) : Op

/-- Well-formedness of an operation's arguments: `Bytes::from` consumes a
value of type `Vec<u8, N>`, whose length is at most `N` by construction
in the collaborating crate; every other argument is unconstrained. -/
def opWf (N : Nat) : Op → Prop
  | .fromOp v => v.length ≤ N
  | _ => True

/-- One public-interface operation applied to the current buffer: `none`
models a panic (the operation does not return normally), a fallible
operation that returns an error leaves the buffer as the call left it,
and a constructor or decode that succeeds replaces the current buffer
with its result. -/
def step (N : Nat) (b : Bytes N) : Op → Option (Bytes N)
  | .newOp => some (Bytes.new N)
  | .fromOp v => some (Bytes.fromVec N v)
  | .tryFromSliceOp s =>
    match Bytes.try_from_slice N s with
    | .ok b2 => some b2
    | .error _ => some b
  | .insertSliceAtOp s i =>
    match b.insert_slice_at s i with
    | .ok b2 => some b2
    | .err b2 => some b2
    | .trap => none
  | .decodeBytesOp v =>
    match visit_bytes N v with
    | .ok b2 => some b2
    | .error _ => some b
  | .decodeSeqOp elems =>
    match visit_seq N elems with
    | .ok b2 => some b2
    | .error _ => some b
  | .viewMutOp f => some ⟨b.bytes.mapIdx f⟩

/-- Runs a list of operations from a starting buffer, stopping when an
operation panics. -/
def run (N : Nat) (b : Bytes N) : List Op → Option (Bytes N)
  | [] => some b
  | op :: ops =>
    match step N b op with
    | none => none
    | some b2 => run N b2 ops

/-- Byte-slice equality holds exactly on identical byte lists. -/
theorem sliceEq_iff (x y : List Nat) : sliceEq x y = true ↔ x = y := by
  induction x generalizing y with
  | nil => cases y <;> simp [sliceEq]
  | cons a xs ih => cases y <;> simp [sliceEq, ih]

/-- Lexicographic byte-slice comparison returns `eq` exactly on identical
byte lists. -/
theorem sliceCompare_eq_iff (x y : List Nat) : sliceCompare x y = .eq ↔ x = y := by
  induction x generalizing y with
  | nil => cases y <;> simp [sliceCompare]
  | cons a xs ih =>
    cases y with
    | nil => simp [sliceCompare]
    | cons b ys =>
      simp only [sliceCompare]
      cases hab : compare a b with
      | lt =>
        rw [Nat.compare_eq_lt] at hab
        simp only [List.cons.injEq]
        constructor
        · intro h; cases h
        · rintro ⟨h1, h2⟩; omega
      | gt =>
        rw [Nat.compare_eq_gt] at hab
        simp only [List.cons.injEq]
        constructor
        · intro h; cases h
        · rintro ⟨h1, h2⟩; omega
      | eq =>
        rw [Nat.compare_eq_eq] at hab
        subst hab
        simp [ih]

/-- Evaluation of `try_from_slice` as a single conditional. -/
theorem try_from_slice_eq (N : Nat) (s : List Nat) :
    Bytes.try_from_slice N s =
      if s.length ≤ N then .ok (Bytes.fromVec N s) else .error () := by
  unfold Bytes.try_from_slice extend_from_slice
  simp only [List.length_nil, Nat.zero_add]
  by_cases h : s.length ≤ N
  · rw [if_neg (by omega), if_pos h]
    rfl
  · rw [if_pos (by omega), if_neg h]

/-- Evaluation of `visit_bytes` as a single conditional. -/
theorem visit_bytes_eq (N : Nat) (v : List Nat) :
    visit_bytes N v =
      if v.length ≤ N then .ok (Bytes.fromVec N v)
      else .error (.invalidLength v.length) := by
  unfold visit_bytes extend_from_slice
  simp only [List.length_nil, Nat.zero_add]
  by_cases h : v.length ≤ N
  · rw [if_neg (by omega), if_pos h, if_neg (by omega)]
    rfl
  · rw [if_pos (by omega), if_neg h]

/-- C5: for every byte slice `s`, `try_from_slice(s)` succeeds if and only
if `len(s) ≤ N`; on success the resulting buffer has length `len(s)` and
its content as returned by `into_vec` is byte-for-byte equal to `s`. -/
theorem try_from_slice_correct (N : Nat) (s : List Nat) :
    ((Bytes.try_from_slice N s).isOk = true ↔ s.length ≤ N) ∧
    (s.length ≤ N →
      Bytes.try_from_slice N s = .ok (Bytes.fromVec N s) ∧
      (Bytes.fromVec N s).into_vec = s ∧
      (Bytes.fromVec N s).bytes.length = s.length) := by
  rw [try_from_slice_eq]
  by_cases h : s.length ≤ N
  · rw [if_pos h]
    exact ⟨⟨fun _ => h, fun _ => rfl⟩, fun _ => ⟨rfl, rfl, rfl⟩⟩
  · rw [if_neg h]
    exact ⟨⟨fun hc => Bool.noConfusion hc, fun hc => absurd hc h⟩,
      fun hc => absurd hc h⟩

/-- Witness for C5 at `N = 4`, `s = [1, 2, 3]`. -/
theorem try_from_slice_correct_witness :
    (Bytes.try_from_slice 4 [1, 2, 3]).isOk = true ∧
    Bytes.try_from_slice 4 [1, 2, 3] = .ok (Bytes.fromVec 4 [1, 2, 3]) := by
  have h := try_from_slice_correct 4 [1, 2, 3]
  exact ⟨h.1.mpr (by decide), (h.2 (by decide)).1⟩

/-- C6: for every atomic byte-string blob `v` of length `M`: if `M > N`
the decoder fails with `InvalidLength` carrying `M`; if `M ≤ N` it
succeeds with a buffer of length `M` whose content is byte-identical to
`v`. -/
theorem visit_bytes_correct (N : Nat) (v : List Nat) :
    (v.length > N → visit_bytes N v = .error (.invalidLength v.length)) ∧
    (v.length ≤ N →
      visit_bytes N v = .ok (Bytes.fromVec N v) ∧
      (Bytes.fromVec N v).bytes.length = v.length ∧
      (Bytes.fromVec N v).into_vec = v) := by
  rw [visit_bytes_eq]
  constructor
  · intro h; rw [if_neg (by omega)]
  · intro h; rw [if_pos h]; exact ⟨rfl, rfl, rfl⟩

/-- Witness for C6 at `N = 2`: a 3-byte blob fails with `InvalidLength 3`,
a 2-byte blob decodes to itself. -/
theorem visit_bytes_correct_witness :
    visit_bytes 2 [7, 8, 9] = .error (.invalidLength 3) ∧
    visit_bytes 2 [7, 8] = .ok (Bytes.fromVec 2 [7, 8]) := by
  exact ⟨(visit_bytes_correct 2 [7, 8, 9]).1 (by decide),
    ((visit_bytes_correct 2 [7, 8]).2 (by decide)).1⟩

/-- C9: equality between a buffer and any value exposing a byte-slice
view holds iff the two byte sequences are element-wise identical; the
partial ordering is the lexicographic byte comparison `sliceCompare` and
is consistent with that equality; concretely, a buffer built by
`try_from_slice` from the bytes of `"abc"` equals the slice `"abc"` and
another buffer built from `"abc"`, and differs from `"abd"`. -/
theorem eq_ord_correct (N : Nat) (b : Bytes N) (rhs : List Nat) :
    (b.beq rhs = true ↔ b.into_vec = rhs) ∧
    (b.partial_cmp rhs = some (sliceCompare b.bytes rhs)) ∧
    (b.partial_cmp rhs = some Ordering.eq ↔ b.beq rhs = true) ∧
    (Bytes.try_from_slice 8 [97, 98, 99] = .ok (Bytes.fromVec 8 [97, 98, 99]) ∧
      Bytes.beq (Bytes.fromVec 8 [97, 98, 99]) [97, 98, 99] = true ∧
      Bytes.beq (Bytes.fromVec 8 [97, 98, 99])
        (Bytes.into_vec (Bytes.fromVec 8 [97, 98, 99])) = true ∧
      Bytes.beq (Bytes.fromVec 8 [97, 98, 99]) [97, 98, 100] = false) := by
  refine ⟨sliceEq_iff b.bytes rhs, rfl, ?_, by rfl, by decide, by decide, by decide⟩
  unfold Bytes.partial_cmp Bytes.beq
  simp only [Option.some.injEq]
  rw [sliceCompare_eq_iff, sliceEq_iff]

/-- An in-range overwrite keeps the slice length. -/
theorem writeAt_length {l src : List Nat} {dest : Nat}
    (h : dest + src.length ≤ l.length) :
    (writeAt l dest src).length = l.length := by
  simp only [writeAt, List.length_append, List.length_take, List.length_drop]
  omega

/-- A `copy_within` call that returns keeps the slice length. -/
theorem copy_within_length {l w : List Nat} {a b d : Nat}
    (h : copy_within l a b d = some w) : w.length = l.length := by
  unfold copy_within at h
  split at h
  · rename_i hc
    cases h
    apply writeAt_length
    simp only [List.length_take, List.length_drop]
    omega
  · exact Option.noConfusion h

/-- A `copy_from_slice` call that returns keeps the slice length. -/
theorem copy_from_slice_length {l src w : List Nat} {i : Nat}
    (h : copy_from_slice l i src = some w) : w.length = l.length := by
  unfold copy_from_slice at h
  split at h
  · rename_i hc
    cases h
    exact writeAt_length hc
  · exact Option.noConfusion h

/-- A successful `resize_default` yields exactly the requested length,
which is within capacity. -/
theorem resize_default_ok_length {N newLen : Nat} {v w : List Nat}
    (h : resize_default N v newLen = .ok w) : w.length = newLen ∧ newLen ≤ N := by
  unfold resize_default at h
  split at h
  · exact Except.noConfusion h
  · rename_i hN
    split at h
    · rename_i hgrow
      cases h
      refine ⟨?_, by omega⟩
      simp only [List.length_append, List.length_replicate]
      omega
    · rename_i htrunc
      cases h
      refine ⟨?_, by omega⟩
      simp only [List.length_take]
      omega

/-- Evaluation of `insert_slice_at` on the success path: with `i` inside
the current content and the grown length within capacity, the three
phases compose to splice the slice in at offset `i`. -/
theorem insert_slice_at_ok_eval {N : Nat} (v slice : List Nat) (i : Nat)
    (h1 : i ≤ v.length) (h2 : v.length + slice.length ≤ N) :
    Bytes.insert_slice_at (⟨v⟩ : Bytes N) slice i =
      .ok ⟨v.take i ++ slice ++ v.drop i⟩ := by
  have hres : resize_default N v (v.length + slice.length)
      = .ok (v ++ List.replicate slice.length 0) := by
    unfold resize_default
    rw [if_neg (by omega), if_pos (by omega), Nat.add_sub_cancel_left]
  have hcw : copy_within (v ++ List.replicate slice.length 0) i v.length
      (i + slice.length)
      = some ((v ++ List.replicate slice.length 0).take (i + slice.length)
          ++ v.drop i) := by
    unfold copy_within writeAt
    rw [if_pos (by
      refine ⟨h1, ?_, ?_⟩ <;>
        simp only [List.length_append, List.length_replicate] <;> omega)]
    rw [List.drop_append_eq_append_drop, Nat.sub_eq_zero_of_le h1, List.drop_zero]
    rw [List.take_left' (show (List.drop i v).length = v.length - i from by simp)]
    rw [List.length_drop]
    rw [show List.drop (i + slice.length + (v.length - i))
          (v ++ List.replicate slice.length 0) = []
        from List.drop_eq_nil_of_le
          (by simp only [List.length_append, List.length_replicate]; omega)]
    rw [List.append_nil]
  have hlentake : ((v ++ List.replicate slice.length 0).take
      (i + slice.length)).length = i + slice.length := by
    simp only [List.length_take, List.length_append, List.length_replicate]
    omega
  have htakei : ((v ++ List.replicate slice.length 0).take (i + slice.length)
      ++ v.drop i).take i = v.take i := by
    rw [List.take_append_eq_append_take, hlentake,
      show i - (i + slice.length) = 0 from by omega, List.take_zero,
      List.append_nil]
    rw [List.take_take]
    rw [show i ⊓ (i + slice.length) = i from inf_eq_left.mpr (by omega)]
    rw [List.take_append_eq_append_take, Nat.sub_eq_zero_of_le h1, List.take_zero,
      List.append_nil]
  have hnil : ((v ++ List.replicate slice.length 0).take (i + slice.length)).drop
      (i + slice.length) = [] := List.drop_eq_nil_of_le hlentake.le
  have hdropil : ((v ++ List.replicate slice.length 0).take (i + slice.length)
      ++ v.drop i).drop (i + slice.length) = v.drop i := by
    rw [List.drop_append_eq_append_drop, hnil]
    rw [hlentake, show i + slice.length - (i + slice.length) = 0 from by omega,
      List.drop_zero, List.nil_append]
  have hcfs : copy_from_slice
      ((v ++ List.replicate slice.length 0).take (i + slice.length) ++ v.drop i)
      i slice = some (v.take i ++ slice ++ v.drop i) := by
    unfold copy_from_slice
    rw [if_pos (by
      simp only [List.length_append, List.length_take, List.length_drop,
        List.length_replicate]
      omega)]
    unfold writeAt
    rw [htakei, hdropil]
  simp only [Bytes.insert_slice_at, hres, hcw, hcfs]

/-- C2: for buffer content `B` of length `L`, offset `i ≤ L`, and slice
`S` with `L + len(S) ≤ N`, `insert_slice_at(S, i)` succeeds, the new
content is `B[0..i] ++ S ++ B[i..L]`, and the new length is
`L + len(S)`. -/
theorem insert_slice_at_correct (N : Nat) (b : Bytes N) (slice : List Nat) (i : Nat)
    (h1 : i ≤ b.bytes.length) (h2 : b.bytes.length + slice.length ≤ N) :
    b.insert_slice_at slice i = .ok ⟨b.bytes.take i ++ slice ++ b.bytes.drop i⟩ ∧
    (b.bytes.take i ++ slice ++ b.bytes.drop i).length
      = b.bytes.length + slice.length := by
  obtain ⟨v⟩ := b
  refine ⟨insert_slice_at_ok_eval v slice i h1 h2, ?_⟩
  simp only [List.length_append, List.length_take, List.length_drop]
  omega

/-- Witness for C2 at `N = 4`: inserting `[9]` at offset 1 of `[1, 2]`
yields `[1, 9, 2]`. -/
theorem insert_slice_at_correct_witness :
    Bytes.insert_slice_at (Bytes.fromVec 4 [1, 2]) [9] 1
      = .ok (Bytes.fromVec 4 [1, 9, 2]) :=
  (insert_slice_at_correct 4 (Bytes.fromVec 4 [1, 2]) [9] 1
    (by decide) (by decide)).1

/-- C3: when `L + len(S) > N`, `insert_slice_at` returns an error and the
buffer is exactly as before the call: the capacity check in
`resize_default` fails before any mutation. -/
theorem insert_slice_at_capacity_error (N : Nat) (b : Bytes N) (slice : List Nat)
    (i : Nat) (h1 : i ≤ b.bytes.length) (h2 : N < b.bytes.length + slice.length) :
    b.insert_slice_at slice i = .err b := by
  have hres : resize_default N b.bytes (b.bytes.length + slice.length)
      = .error () := by
    unfold resize_default
    rw [if_pos (by omega)]
  simp only [Bytes.insert_slice_at, hres]

/-- Witness for C3 at `N = 2`: inserting `[9]` into the full buffer
`[1, 2]` fails with the buffer unchanged. -/
theorem insert_slice_at_capacity_error_witness :
    Bytes.insert_slice_at (Bytes.fromVec 2 [1, 2]) [9] 0
      = .err (Bytes.fromVec 2 [1, 2]) :=
  insert_slice_at_capacity_error 2 (Bytes.fromVec 2 [1, 2]) [9] 0
    (by decide) (by decide)

/-- Counterexample to C4 as stated: at `N = 4`, buffer `[1]` (length 1),
slice `[9]` (so `L + len(S) = 2 ≤ 4`) and offset `2 > L`, the call does
not validate the offset and return an error; it traps in `copy_within`. -/
theorem insert_slice_at_no_validate_cex :
    Bytes.insert_slice_at (Bytes.fromVec 4 [1]) [9] 2 = InsertOutcome.trap ∧
    ∀ b : Bytes 4,
      Bytes.insert_slice_at (Bytes.fromVec 4 [1]) [9] 2 ≠ InsertOutcome.err b := by
  have h1 : Bytes.insert_slice_at (Bytes.fromVec 4 [1]) [9] 2
      = InsertOutcome.trap := by rfl
  exact ⟨h1, fun b h => by rw [h1] at h; exact InsertOutcome.noConfusion h⟩

/-- C4 amended: for every offset `i > L` with `L + len(S) ≤ N`,
`insert_slice_at` performs no offset validation and traps (the underlying
`copy_within` panics on the invalid range) instead of returning an
error. -/
theorem insert_slice_at_oob_traps (N : Nat) (b : Bytes N) (slice : List Nat)
    (i : Nat) (h1 : b.bytes.length < i) (h2 : b.bytes.length + slice.length ≤ N) :
    b.insert_slice_at slice i = .trap := by
  have hres : resize_default N b.bytes (b.bytes.length + slice.length)
      = .ok (b.bytes ++ List.replicate slice.length 0) := by
    unfold resize_default
    rw [if_neg (by omega), if_pos (by omega), Nat.add_sub_cancel_left]
  have hcw : copy_within (b.bytes ++ List.replicate slice.length 0) i
      b.bytes.length (i + slice.length) = none := by
    unfold copy_within
    rw [if_neg (fun hc => absurd hc.1 (by omega))]
  simp only [Bytes.insert_slice_at, hres, hcw]

/-- Witness for the amended C4 at `N = 4`: offset 3 on a buffer of
length 2 traps. -/
theorem insert_slice_at_oob_traps_witness :
    Bytes.insert_slice_at (Bytes.fromVec 4 [1, 2]) [7] 3 = InsertOutcome.trap :=
  insert_slice_at_oob_traps 4 (Bytes.fromVec 4 [1, 2]) [7] 3
    (by decide) (by decide)

/-- C10: wrapping an underlying bounded vector and unwrapping it again is
the identity, with length and content preserved exactly; the wrap step
is a total function with no capacity check and no failure. -/
theorem from_into_vec_id (N : Nat) (v : List Nat) :
    (Bytes.fromVec N v).into_vec = v ∧
    (Bytes.fromVec N v).into_vec.length = v.length :=
  ⟨rfl, rfl⟩

/-- The sequence-decode loop succeeds, preserving element order, when the
accumulated and remaining elements fit in the capacity. -/
theorem visit_seq_loop_ok (N : Nat) (xs : List Nat) :
    ∀ values : List Nat, values.length + xs.length ≤ N →
      visit_seq_loop N values xs = .ok (Bytes.fromVec N (values ++ xs)) := by
  induction xs with
  | nil => intro values h; simp [visit_seq_loop]
  | cons x xs ih =>
    intro values h
    have hp : vecPush N values x = .ok (values ++ [x]) := by
      unfold vecPush
      rw [if_pos (by simp only [List.length_cons] at h; omega)]
    simp only [visit_seq_loop, hp]
    rw [ih (values ++ [x]) (by simp only [List.length_append, List.length_cons,
      List.length_nil] at h ⊢; omega)]
    rw [List.append_assoc]
    rfl

/-- The sequence-decode loop processes its input front to back: elements
that fit are pushed, and the loop continues on the rest from the grown
accumulator. -/
theorem visit_seq_loop_advance (N : Nat) (xs ys : List Nat) :
    ∀ values : List Nat, values.length + xs.length ≤ N →
      visit_seq_loop N values (xs ++ ys) = visit_seq_loop N (values ++ xs) ys := by
  induction xs with
  | nil => intro values h; simp
  | cons x xs ih =>
    intro values h
    have hp : vecPush N values x = .ok (values ++ [x]) := by
      unfold vecPush
      rw [if_pos (by simp only [List.length_cons] at h; omega)]
    simp only [List.cons_append, visit_seq_loop, hp, List.append_eq]
    rw [ih (values ++ [x]) (by simp only [List.length_append, List.length_cons,
      List.length_nil] at h ⊢; omega)]
    rw [List.append_assoc]
    rfl

/-- When the accumulator is already full, the very next element makes the
push fail and the loop reports `invalid_length(N + 1)` at once. -/
theorem visit_seq_loop_full_err (N : Nat) (values : List Nat) (x : Nat)
    (xs : List Nat) (h : N ≤ values.length) :
    visit_seq_loop N values (x :: xs) = .error (.invalidLength (N + 1)) := by
  have hp : vecPush N values x = .error () := by
    unfold vecPush
    rw [if_neg (by omega)]
  simp only [visit_seq_loop, hp]

/-- C7: the sequence-shaped decoder pushes elements one at a time in
order; with at most `N` elements it succeeds with exactly those elements;
with more than `N` elements the loop reaches the state holding the first
`N` elements and fails there, at the moment the `(N+1)`-th element is
processed, with `InvalidLength` carrying `N + 1` — it does not silently
drop the overflowing element. -/
theorem visit_seq_correct (N : Nat) (elems : List Nat) :
    (elems.length ≤ N → visit_seq N elems = .ok (Bytes.fromVec N elems)) ∧
    (N < elems.length →
      visit_seq N elems = visit_seq_loop N (elems.take N) (elems.drop N) ∧
      visit_seq_loop N (elems.take N) (elems.drop N)
        = .error (.invalidLength (N + 1)) ∧
      visit_seq N elems = .error (.invalidLength (N + 1))) := by
  constructor
  · intro h
    have hok := visit_seq_loop_ok N elems [] (by simpa using h)
    simpa [visit_seq] using hok
  · intro h
    have hsplit : visit_seq N elems
        = visit_seq_loop N (elems.take N) (elems.drop N) := by
      have hadv := visit_seq_loop_advance N (elems.take N) (elems.drop N) []
        (by simp only [List.length_nil, Nat.zero_add, List.length_take]; omega)
      rw [List.take_append_drop] at hadv
      simpa [visit_seq] using hadv
    obtain ⟨x, xs, hx⟩ : ∃ x xs, elems.drop N = x :: xs := by
      cases hd : elems.drop N with
      | nil =>
        have h0 : (elems.drop N).length = 0 := by rw [hd]; rfl
        rw [List.length_drop] at h0
        omega
      | cons x xs => exact ⟨x, xs, rfl⟩
    have herr : visit_seq_loop N (elems.take N) (elems.drop N)
        = .error (.invalidLength (N + 1)) := by
      rw [hx]
      exact visit_seq_loop_full_err N (elems.take N) x xs
        (by simp only [List.length_take]; omega)
    exact ⟨hsplit, herr, hsplit.trans herr⟩

/-- Witness for C7 at `N = 2`: two elements decode in order, three fail
with `InvalidLength 3`. -/
theorem visit_seq_correct_witness :
    visit_seq 2 [1, 2] = .ok (Bytes.fromVec 2 [1, 2]) ∧
    visit_seq 2 [4, 5, 6] = .error (.invalidLength 3) :=
  ⟨(visit_seq_correct 2 [1, 2]).1 (by decide),
    ((visit_seq_correct 2 [4, 5, 6]).2 (by decide)).2.2⟩

/-- C8: encoding a buffer of content `b` with `len(b) ≤ N` emits exactly
one atomic byte string holding the bytes verbatim, and decoding that
payload through the atomic-byte-string wire shape reproduces the buffer
exactly. -/
theorem serialize_round_trip (N : Nat) (b : Bytes N)
    (h : b.bytes.length ≤ N) :
    serialize b = b.bytes ∧
    (serialize b).length = b.bytes.length ∧
    visit_bytes N (serialize b) = .ok b := by
  refine ⟨rfl, rfl, ?_⟩
  rw [visit_bytes_eq, if_pos (by simpa [serialize] using h)]
  rfl

/-- Witness for C8 at `N = 3`, content `[1, 2]`. -/
theorem serialize_round_trip_witness :
    visit_bytes 3 (serialize (Bytes.fromVec 3 [1, 2]))
      = .ok (Bytes.fromVec 3 [1, 2]) :=
  (serialize_round_trip 3 (Bytes.fromVec 3 [1, 2]) (by decide)).2.2

/-- A successful push stays within capacity. -/
theorem vecPush_ok_length {N : Nat} {values v2 : List Nat} {x : Nat}
    (h : vecPush N values x = .ok v2) : v2.length ≤ N := by
  unfold vecPush at h
  split at h
  · rename_i hlt
    cases h
    simp only [List.length_append, List.length_singleton]
    omega
  · exact Except.noConfusion h

/-- A buffer produced by a successful `try_from_slice` is within
capacity. -/
theorem try_from_slice_ok_length {N : Nat} {s : List Nat} {b : Bytes N}
    (h : Bytes.try_from_slice N s = .ok b) : b.bytes.length ≤ N := by
  rw [try_from_slice_eq] at h
  split at h
  · rename_i hle
    cases h
    exact hle
  · exact Except.noConfusion h

/-- A buffer produced by a successful `visit_bytes` is within capacity. -/
theorem visit_bytes_ok_length {N : Nat} {v : List Nat} {b : Bytes N}
    (h : visit_bytes N v = .ok b) : b.bytes.length ≤ N := by
  rw [visit_bytes_eq] at h
  split at h
  · rename_i hle
    cases h
    exact hle
  · exact Except.noConfusion h

/-- A buffer produced by a successful sequence-decode loop is within
capacity, provided the accumulator starts within capacity. -/
theorem visit_seq_loop_ok_length {N : Nat} :
    ∀ (xs values : List Nat) (b : Bytes N), values.length ≤ N →
      visit_seq_loop N values xs = .ok b → b.bytes.length ≤ N := by
  intro xs
  induction xs with
  | nil =>
    intro values b hv h
    simp only [visit_seq_loop] at h
    cases h
    exact hv
  | cons x xs ih =>
    intro values b hv h
    simp only [visit_seq_loop] at h
    cases hp : vecPush N values x with
    | ok v2 =>
      rw [hp] at h
      exact ih v2 b (vecPush_ok_length hp) h
    | error e =>
      rw [hp] at h
      exact Except.noConfusion h

/-- A buffer produced by a successful `insert_slice_at` is within
capacity: the resize that succeeded bounded the grown length, and the
two copies preserve it. -/
theorem insert_slice_at_ok_length {N : Nat} {b b2 : Bytes N}
    {slice : List Nat} {i : Nat}
    (h : b.insert_slice_at slice i = .ok b2) : b2.bytes.length ≤ N := by
  simp only [Bytes.insert_slice_at] at h
  split at h
  · exact InsertOutcome.noConfusion h
  · rename_i grown hres
    split at h
    · exact InsertOutcome.noConfusion h
    · rename_i moved hcw
      split at h
      · exact InsertOutcome.noConfusion h
      · rename_i done hcf
        cases h
        obtain ⟨hg, hgN⟩ := resize_default_ok_length hres
        have hcw2 := copy_within_length hcw
        have hcf2 := copy_from_slice_length hcf
        show done.length ≤ N
        omega

/-- An `insert_slice_at` call that returns an error leaves the buffer
exactly as it was. -/
theorem insert_slice_at_err_eq {N : Nat} {b b2 : Bytes N}
    {slice : List Nat} {i : Nat}
    (h : b.insert_slice_at slice i = .err b2) : b2 = b := by
  simp only [Bytes.insert_slice_at] at h
  split at h
  · cases h
    rfl
  · rename_i grown hres
    split at h
    · exact InsertOutcome.noConfusion h
    · rename_i moved hcw
      split at h
      · exact InsertOutcome.noConfusion h
      · rename_i done hcf
        exact InsertOutcome.noConfusion h

/-- Every single public-interface operation that returns normally leaves
the buffer within capacity. -/
theorem step_preserves_capacity {N : Nat} {b b2 : Bytes N} {op : Op}
    (hb : b.bytes.length ≤ N) (hwf : opWf N op) (h : step N b op = some b2) :
    b2.bytes.length ≤ N := by
  cases op with
  | newOp =>
    cases h
    exact Nat.zero_le N
  | fromOp v =>
    cases h
    exact hwf
  | tryFromSliceOp s =>
    simp only [step] at h
    cases hts : Bytes.try_from_slice N s with
    | ok c =>
      rw [hts] at h
      cases h
      exact try_from_slice_ok_length hts
    | error e =>
      rw [hts] at h
      cases h
      exact hb
  | insertSliceAtOp s i =>
    simp only [step] at h
    cases hins : b.insert_slice_at s i with
    | ok c =>
      rw [hins] at h
      cases h
      exact insert_slice_at_ok_length hins
    | err c =>
      rw [hins] at h
      cases h
      rw [insert_slice_at_err_eq hins]
      exact hb
    | trap =>
      rw [hins] at h
      exact Option.noConfusion h
  | decodeBytesOp v =>
    simp only [step] at h
    cases hvb : visit_bytes N v with
    | ok c =>
      rw [hvb] at h
      cases h
      exact visit_bytes_ok_length hvb
    | error e =>
      rw [hvb] at h
      cases h
      exact hb
  | decodeSeqOp elems =>
    simp only [step] at h
    cases hvs : visit_seq N elems with
    | ok c =>
      rw [hvs] at h
      cases h
      exact visit_seq_loop_ok_length elems [] _ (Nat.zero_le N) hvs
    | error e =>
      rw [hvs] at h
      cases h
      exact hb
  | viewMutOp f =>
    cases h
    rw [List.length_mapIdx]
    exact hb

/-- C1: for every starting buffer within capacity and every sequence of
well-formed public-interface operations (construction, `from`,
`try_from_slice`, `insert_slice_at`, decode via either wire shape,
mutation through the exposed views), every buffer reached through
operations that return normally has length at most `N`. -/
theorem capacity_invariant (N : Nat) (ops : List Op) (b b2 : Bytes N)
    (hb : b.bytes.length ≤ N) (hwf : ∀ op ∈ ops, opWf N op)
    (hrun : run N b ops = some b2) : b2.bytes.length ≤ N := by
  induction ops generalizing b with
  | nil =>
    simp only [run] at hrun
    cases hrun
    exact hb
  | cons op ops ih =>
    simp only [run] at hrun
    cases hstep : step N b op with
    | none =>
      rw [hstep] at hrun
      exact Option.noConfusion hrun
    | some c =>
      rw [hstep] at hrun
      exact ih c
        (step_preserves_capacity hb (hwf op (by simp)) hstep)
        (fun o ho => hwf o (List.mem_cons_of_mem op ho)) hrun

/-- Witness for C1 at `N = 2`: from the empty buffer, a failing
`try_from_slice`, a `new`, and a sequence decode of one element end in a
buffer of length 1 ≤ 2. -/
theorem capacity_invariant_witness :
    (Bytes.fromVec 2 [5]).bytes.length ≤ 2 :=
  capacity_invariant 2
    [Op.tryFromSliceOp [1, 2, 3], Op.newOp, Op.decodeSeqOp [5]]
    (Bytes.fromVec 2 []) (Bytes.fromVec 2 [5]) (by decide)
    (by
      intro op hop
      simp only [List.mem_cons, List.not_mem_nil, or_false] at hop
      rcases hop with rfl | rfl | rfl <;> trivial)
    (by rfl)

end HeaplessBytes
